import Mathlib

/-!
Verification development for a hospital readmission prediction service.

The definitions below are a shallow embedding of the serving pipeline:
feature preprocessing and categorical encoding (`_preprocess_features`),
risk scoring (`riskLevelOf`, `confidence_interval`), explainability
(`_calculate_feature_importance`), cache fingerprinting
(`calculate_features_hash`, `prediction_cache_key`), the single-prediction
route (`create_prediction`), model loading (`_load_models`) and the batch
path (`create_batch_prediction`, `process_batch_predictions`).

Modelling conventions: Python floats are modelled as rationals, dictionaries
as association lists (first binding wins, matching a dict with unique keys),
exceptions as `Except`, and the external MD5 digest as an opaque function
parameter. Side effects of the route handlers are made explicit as a
returned state plus a trace of effects.
-/

namespace HosReadd

/-! ### Generic utilities: character order, association lists -/

/-- Lexicographic comparison of character lists by code point, mirroring how
Python compares strings when `json.dumps(..., sort_keys=True)` and
`numpy.unique` (inside `LabelEncoder.fit`) sort keys and class labels. -/
def charsLeB : List Char → List Char → Bool
  | [], _ => true
  | _ :: _, [] => false
  | a :: as, b :: bs =>
    if a.toNat < b.toNat then true
    else if b.toNat < a.toNat then false
    else charsLeB as bs

/-- String comparison by code points (computable replacement for the
non-reducing builtin order). -/
def strLeB (a b : String) : Bool := charsLeB a.data b.data

/-- Lookup in an association list; models reading from a Python dict whose
keys are unique. -/
def alookup (k : String) : List (String × α) → Option α
  | [] => none
  | (k2, v) :: rest => if k2 = k then some v else alookup k rest

/-- Assignment `d[k] = v` on a Python dict: replace the existing binding in
place, or append a new binding at the end. -/
def setVal : List (String × α) → String → α → List (String × α)
  | [], k, v => [(k, v)]
  | (k2, v2) :: rest, k, v =>
    if k2 = k then (k2, v) :: rest else (k2, v2) :: setVal rest k v

/-! ### Data model: feature values and records -/

/-- A value stored in a patient feature record: `None`, a string, or a
numeric value (Python numbers modelled as rationals). -/
inductive Val
  | null
  | str (s : String)
  | num (q : ℚ)
deriving DecidableEq

/-- A patient feature record, i.e. the dict produced by
`PatientFeatures.dict()`: an association list from field names to values. -/
abbrev PatientRecord := List (String × Val)

/-! ### Decimal rendering (stand-in for Python `str`/`json` numerals) -/

/-- One decimal digit as a character. -/
def digitChar : Nat → Char
  | 0 => '0' | 1 => '1' | 2 => '2' | 3 => '3' | 4 => '4'
  | 5 => '5' | 6 => '6' | 7 => '7' | 8 => '8' | _ => '9'

/-- Decimal digits of a natural number, most significant first; the first
argument is fuel (any value above the argument suffices). -/
def natCharsAux : Nat → Nat → List Char
  | 0, _ => []
  | fuel + 1, n =>
    if n < 10 then [digitChar n]
    else natCharsAux fuel (n / 10) ++ [digitChar (n % 10)]

/-- Decimal digits of a natural number. -/
def natChars (n : Nat) : List Char := natCharsAux (n + 1) n

/-- Decimal rendering of an integer. -/
def intChars (i : Int) : List Char :=
  if i < 0 then '-' :: natChars i.natAbs else natChars i.natAbs

/-- Rendering of a rational value as numerator and denominator digits.
This stands in for the Python textual representation of a number: what
matters for the development is that it is injective and uses only digit,
minus and slash characters, none of which collide with the JSON
delimiters or with the label-encoder vocabulary. -/
def ratChars (q : ℚ) : List Char := intChars q.num ++ '/' :: natChars q.den

/-- Python `str()` of a feature value, as used before label encoding. -/
def pyStr : Val → String
  | .null => "None"
  | .str s => s
  | .num q => String.mk (ratChars q)

/-! ### Canonical JSON serialization (as `json.dumps(..., sort_keys=True)`) -/

/-- JSON escaping of a single character (quote and backslash). -/
def escChar (c : Char) : List Char :=
  if c = '"' then ['\\', '"'] else if c = '\\' then ['\\', '\\'] else [c]

/-- JSON escaping of a character list. -/
def escChars : List Char → List Char
  | [] => []
  | c :: cs => escChar c ++ escChars cs

/-- A JSON string token: opening quote, escaped content, closing quote. -/
def jsonStrChars (s : String) : List Char := '"' :: (escChars s.data ++ ['"'])

/-- JSON rendering of a feature value. -/
def jsonValChars : Val → List Char
  | .null => ['n', 'u', 'l', 'l']
  | .str s => jsonStrChars s
  | .num q => ratChars q

/-- One `"key": value` member of a JSON object. -/
def pairChars (p : String × Val) : List Char :=
  jsonStrChars p.1 ++ ':' :: ' ' :: jsonValChars p.2

/-- Members of a JSON object joined by the `", "` separator. -/
def pairsChars : List (String × Val) → List Char
  | [] => []
  | [p] => pairChars p
  | p :: q :: ps => pairChars p ++ ',' :: ' ' :: pairsChars (q :: ps)

/-- A whole JSON object: braces around the joined members. -/
def serializeChars (d : List (String × Val)) : List Char :=
  Char.ofNat 123 :: (pairsChars d ++ [Char.ofNat 125])

/-- Members sorted by key, as `json.dumps` does with `sort_keys=True`. -/
def canonicalPairs (d : List (String × Val)) : List (String × Val) :=
  List.insertionSort (fun a b => strLeB a.1 b.1 = true) d

/-- The canonical JSON text of a feature record. -/
def featuresJson (d : PatientRecord) : String :=
  String.mk (serializeChars (canonicalPairs d))

/-- Source `MLService.calculate_features_hash`: MD5 digest of the canonical
JSON text. The digest itself is external (`hashlib`), so it is passed in as
an opaque function. -/
def calculate_features_hash (digest : String → String) (d : PatientRecord) : String :=
  digest (featuresJson d)

/-- Source `cache_key`: joins its parts with a colon. -/
def cache_key (parts : List String) : String :=
  match parts with
  | [] => ""
  | p :: ps => ps.foldl (fun acc s => acc ++ ":" ++ s) p

/-- Source `prediction_cache_key`. -/
def prediction_cache_key (patientId : String) (featuresHash : String) : String :=
  cache_key ["prediction", patientId, featuresHash]

/-! ### Feature encoding (`_initialize_feature_encoders`, `_preprocess_features`) -/

/-- The configured required feature schema (`settings.REQUIRED_FEATURES`). -/
def requiredFeatures : List String :=
  ["age", "gender", "admission_type", "discharge_disposition",
   "admission_source", "time_in_hospital", "num_lab_procedures",
   "num_procedures", "num_medications", "number_outpatient",
   "number_emergency", "number_inpatient", "diag_1", "diag_2",
   "diag_3", "number_diagnoses", "max_glu_serum", "A1Cresult",
   "metformin", "repaglinide", "nateglinide", "chlorpropamide",
   "glimepiride", "acetohexamide", "glipizide", "glyburide",
   "tolbutamide", "pioglitazone", "rosiglitazone", "acarbose",
   "miglitol", "troglitazone", "tolazamide", "examide",
   "citoglipton", "insulin", "glyburide-metformin",
   "glipizide-metformin", "glimepiride-pioglitazone",
   "metformin-rosiglitazone", "metformin-pioglitazone",
   "change", "diabetesMed", "readmitted", "race",
   "weight", "payer_code", "medical_specialty",
   "num_medications_grouped", "diag_1_grouped", "diag_2_grouped",
   "diag_3_grouped", "age_grouped", "admission_type_grouped",
   "discharge_disposition_grouped", "admission_source_grouped"]

/-- The features given a label encoder in `_initialize_feature_encoders`. -/
def categoricalFeatures : List String :=
  ["gender", "race", "max_glu_serum", "A1Cresult", "metformin",
   "repaglinide", "nateglinide", "chlorpropamide", "glimepiride",
   "acetohexamide", "glipizide", "glyburide", "tolbutamide",
   "pioglitazone", "rosiglitazone", "acarbose", "miglitol",
   "troglitazone", "tolazamide", "examide", "citoglipton",
   "insulin", "glyburide_metformin", "glipizide_metformin",
   "glimepiride_pioglitazone", "metformin_rosiglitazone",
   "metformin_pioglitazone", "change", "diabetesMed", "readmitted",
   "payer_code", "medical_specialty", "diag_1", "diag_2", "diag_3"]

/-- The values every label encoder is fitted with. -/
def encoderFitValues : List String :=
  ["No", "Yes", "Up", "Down", "Steady", "None", "Male", "Female"]

/-- The fitted classes of every label encoder: `LabelEncoder.fit` stores the
sorted distinct values. -/
def encoderClasses : List String :=
  List.insertionSort (fun a b => strLeB a b = true) encoderFitValues

/-- Position of a string in a class list (`LabelEncoder.transform` of one
value); only meaningful when the value is a member. -/
def classIndex (s : String) : List String → Nat
  | [] => 0
  | c :: cs => if c = s then 0 else classIndex s cs + 1

/-- Label encoding of one stringified value: members map to their index in
the sorted class list, a value outside the vocabulary is first replaced by
`classes_[0]` and therefore maps to the fallback code 0. -/
def encodeCategorical (s : String) : Nat :=
  if s ∈ encoderClasses then classIndex s encoderClasses else 0

/-- Encoding step of `_preprocess_features` for one binding: a categorical
feature with a non-`None` value is replaced by its label code, every other
binding is kept unchanged. -/
def encodeFeatureVal (k : String) (v : Val) : Val :=
  if k ∈ categoricalFeatures ∧ v ≠ Val.null then
    Val.num (encodeCategorical (pyStr v))
  else v

/-- The categorical-encoding loop of `_preprocess_features` applied to the
whole record. -/
def encodeAll (d : PatientRecord) : PatientRecord :=
  d.map (fun p => (p.1, encodeFeatureVal p.1 p.2))

/-- One step of the missing-value loop: a required feature that is absent is
appended with value 0, a `None` value is overwritten with 0. -/
def fillMissingStep (d : PatientRecord) (f : String) : PatientRecord :=
  match alookup f d with
  | none => d ++ [(f, Val.num 0)]
  | some Val.null => setVal d f (Val.num 0)
  | some _ => d

/-- The missing-value loop over the required feature schema. -/
def fillMissing (d : PatientRecord) : PatientRecord :=
  requiredFeatures.foldl fillMissingStep d

/-- Effect of the missing-value loop on the binding of one required
feature: absent and `None` values become 0, other values are untouched. -/
def normMissing : Option Val → Option Val
  | none => some (Val.num 0)
  | some Val.null => some (Val.num 0)
  | some v => some v

/-- The column-selection step: required features present in the frame, in
schema order. -/
def availableFeatures (d : PatientRecord) : List String :=
  requiredFeatures.filter (fun f => (alookup f d).isSome)

/-- Source `MLService._preprocess_features`: encode categoricals, substitute
missing required features, then keep exactly the available required columns
in schema order. -/
def _preprocess_features (d : PatientRecord) : List (String × Val) :=
  let d2 := fillMissing (encodeAll d)
  (availableFeatures d2).map (fun f => (f, (alookup f d2).getD (Val.num 0)))

/-! ### Scoring (`_predict_sync`) and explainability -/

/-- Risk tiers (the `RiskLevel` enum). -/
inductive RiskLevel
  | low
  | medium
  | high
deriving DecidableEq

/-- Risk tier derivation in `_predict_sync`. -/
def riskLevelOf (p : ℚ) : RiskLevel :=
  if p < 3/10 then .low else if p < 7/10 then .medium else .high

/-- Confidence band of `_predict_sync`: a fixed plus or minus 0.05 window
clamped to the unit interval. -/
def confidence_interval (p : ℚ) : ℚ × ℚ :=
  (max 0 (p - 5/100), min 1 (p + 5/100))

/-- One entry of the explainability output. -/
structure FeatureImportanceItem where
  feature_name : String
  importance_score : ℚ
  feature_value : ℚ
  contribution : ℚ
deriving DecidableEq

/-- Construction loop of `_calculate_feature_importance`: one item per
column that has a matching importance entry (`i < len(importances)`), with
`contribution = importance * value`. -/
def mkImportanceItems (importances : List ℚ) (cols : List (String × ℚ)) :
    List FeatureImportanceItem :=
  (cols.zip importances).map (fun p => ⟨p.1.1, p.2, p.1.2, p.2 * p.1.2⟩)

/-- Source `MLService._calculate_feature_importance` on a numeric frame:
build the items, sort by descending importance with the stable Python list
sort (modelled by `insertionSort`, which is the unique stable sort for this
relation), and keep the first 10. -/
def _calculate_feature_importance (importances : List ℚ) (cols : List (String × ℚ)) :
    List FeatureImportanceItem :=
  (List.insertionSort (fun a b => b.importance_score ≤ a.importance_score)
    (mkImportanceItems importances cols)).take 10

/-! ### The ML service (`MLService.predict`) -/

/-- Configured default model name (`settings.DEFAULT_MODEL`). -/
def DEFAULT_MODEL : String := "xgboost"

/-- An opaque model handle: a scoring capability on the preprocessed frame
plus its importance vector. -/
structure MLModel where
  score : List (String × Val) → ℚ
  importances : List ℚ

/-- The mutable registries of `MLService`. -/
structure MLState where
  models : List (String × MLModel)
  model_versions : List (String × String)

/-- Errors raised by `MLService.predict`. -/
inductive MLError
  | modelUnavailable (name : String)
deriving DecidableEq

/-- Observable effects of the serving path. -/
inductive Eff
  | encode
  | invoke
  | dbWrite
  | cacheWrite
deriving DecidableEq

/-- The prediction payload assembled by `_predict_sync` and `predict`. -/
structure PredictOut where
  risk_score : ℚ
  confidence_lower : ℚ
  confidence_upper : ℚ
  risk_level : RiskLevel
  model_used : String
  model_version : String
  feature_importance : List FeatureImportanceItem
deriving DecidableEq

/-- Numeric view of the preprocessed frame; `none` when some cell is not a
number, in which case `float()` raises inside the importance helper and the
surrounding `except` returns an empty importance list. -/
def frameNumeric : List (String × Val) → Option (List (String × ℚ))
  | [] => some []
  | (k, Val.num q) :: rest => (frameNumeric rest).map (fun t => (k, q) :: t)
  | _ => none

/-- Source `MLService.predict`: resolve the model name (default when
unspecified), fail with the model-unavailable error when it is not
registered, otherwise preprocess, score and assemble the result. The trace
records that encoding and model invocation happened. -/
def predictSvc (svc : MLState) (features : PatientRecord)
    (model_name : Option String) (includeFI : Bool) :
    Except MLError PredictOut × List Eff :=
  let name := model_name.getD DEFAULT_MODEL
  match alookup name svc.models with
  | none => (.error (.modelUnavailable name), [])
  | some m =>
    let frame := _preprocess_features features
    let p := m.score frame
    let fi :=
      if includeFI then
        match frameNumeric frame with
        | some cols => _calculate_feature_importance m.importances cols
        | none => []
      else []
    (.ok { risk_score := p
           confidence_lower := (confidence_interval p).1
           confidence_upper := (confidence_interval p).2
           risk_level := riskLevelOf p
           model_used := name
           model_version := (alookup name svc.model_versions).getD "1.0.0"
           feature_importance := fi },
     [.encode, .invoke])

/-! ### The single-prediction route (`create_prediction`) -/

/-- The response payload of the prediction route. -/
structure PredictionResponse where
  prediction_id : String
  patient_id : String
  risk_score : ℚ
  confidence_interval : ℚ × ℚ
  risk_level : RiskLevel
  model_used : String
  model_version : String
  feature_importance : List FeatureImportanceItem
deriving DecidableEq

/-- External state touched by the route: the result cache and the stored
prediction records. -/
structure ServeState where
  cache : List (String × PredictionResponse)
  dbPredictions : List PredictionResponse
deriving DecidableEq

/-- Errors surfaced by the route. -/
inductive RouteError
  | http500 (detail : String)
deriving DecidableEq

/-- Message text of a service error. -/
def errMsg : MLError → String
  | .modelUnavailable n => "Model " ++ n ++ " not available"

/-- Source route handler `create_prediction`: fingerprint the features,
probe the cache and return a hit verbatim; on a miss run the service, store
the new record in the database and the cache, and return it. A service
error aborts the handler before any write. -/
def create_prediction (digest : String → String) (svc : MLState)
    (st : ServeState) (newId patientId : String) (features : PatientRecord)
    (model_name : Option String) (includeFI : Bool) :
    Except RouteError PredictionResponse × ServeState × List Eff :=
  let fhash := calculate_features_hash digest features
  let key := prediction_cache_key patientId fhash
  match alookup key st.cache with
  | some cached => (.ok cached, st, [])
  | none =>
    match predictSvc svc features model_name includeFI with
    | (.error e, tr) => (.error (.http500 ("Error generating prediction: " ++ errMsg e)), st, tr)
    | (.ok out, tr) =>
      let resp : PredictionResponse :=
        { prediction_id := newId
          patient_id := patientId
          risk_score := out.risk_score
          confidence_interval := (out.confidence_lower, out.confidence_upper)
          risk_level := out.risk_level
          model_used := out.model_used
          model_version := out.model_version
          feature_importance := out.feature_importance }
      (.ok resp,
       { cache := (key, resp) :: st.cache,
         dbPredictions := st.dbPredictions ++ [resp] },
       tr ++ [.dbWrite, .cacheWrite])

/-! ### Model loading (`_load_models`) -/

/-- The configured models and their versions in `_load_models`. -/
def model_configs : List (String × String) :=
  [("xgboost", "1.0.0"), ("lightgbm", "1.0.0"),
   ("random_forest", "1.0.0"), ("logistic_regression", "1.0.0")]

/-- Source `MLService._load_models`: for each configured model, load the
artifact when it exists, otherwise register the freshly fitted dummy model
under the same name; the version registered is the configured one in both
cases, and nothing in the resulting state records which path was taken. -/
def _load_models (artifact : String → Option MLModel)
    (dummyModel : String → MLModel) : MLState :=
  { models := model_configs.map (fun c => (c.1, (artifact c.1).getD (dummyModel c.1)))
    model_versions := model_configs }

/-! ### The batch path -/

/-- Batch job status values. -/
inductive PredictionStatus
  | pending
  | processing
  | completed
  | failed
deriving DecidableEq

/-- One record of a batch submission. -/
structure PredictionRequest where
  patient_id : String
  features : PatientRecord
  include_feature_importance : Bool

/-- The batch job record. -/
structure BatchJob where
  batch_id : String
  status : PredictionStatus
  total_records : Nat
  processed_records : Nat
  failed_records : Nat
  model_name : String
  error_message : Option String

/-- The per-record loop of `process_batch_predictions`: every record is
attempted; a success increments the processed counter, a caught per-record
exception increments the failed counter. -/
def process_batch_records (svc : MLState) (model_name : Option String)
    (records : List PredictionRequest) : Nat × Nat :=
  records.foldl
    (fun acc r =>
      match (predictSvc svc r.features model_name r.include_feature_importance).1 with
      | .ok _ => (acc.1 + 1, acc.2)
      | .error _ => (acc.1, acc.2 + 1))
    (0, 0)

/-- Source background task `process_batch_predictions`, in the case where
the orchestration loop itself runs to completion: mark the job processing,
attempt every record, then store the tallies and mark the job completed. -/
def process_batch_predictions (svc : MLState) (model_name : Option String)
    (job : BatchJob) (records : List PredictionRequest) : BatchJob :=
  let job1 := { job with status := .processing }
  let counts := process_batch_records svc model_name records
  { job1 with
      processed_records := counts.1
      failed_records := counts.2
      status := .completed }

/-- Validation of `BatchPredictionRequest`: at most 1000 items
(`max_items`), and the validator rejects an empty list. -/
def validateBatchRequest (preds : List PredictionRequest) :
    Except String (List PredictionRequest) :=
  if preds.length > 1000 then .error "ensure this value has at most 1000 items"
  else if preds.isEmpty then .error "Predictions list cannot be empty"
  else .ok preds

/-- Source route handler `create_batch_prediction` up to job creation: a
validated submission creates the pending job with fixed total and zeroed
counters. -/
def create_batch_prediction (batchId : String)
    (preds : List PredictionRequest) (model_name : Option String) :
    Except String BatchJob :=
  (validateBatchRequest preds).map
    (fun ps =>
      { batch_id := batchId
        status := .pending
        total_records := ps.length
        processed_records := 0
        failed_records := 0
        model_name := model_name.getD DEFAULT_MODEL
        error_message := none })

end HosReadd

namespace HosReadd

/-! ### Helper lemmas for the batch loop -/

/-- The per-record loop only ever increments one of the two counters, so
their sum advances by exactly the number of records attempted. -/
theorem batch_counts_sum (svc : MLState) (model_name : Option String) :
    ∀ (records : List PredictionRequest) (acc : Nat × Nat),
      (records.foldl
        (fun acc r =>
          match (predictSvc svc r.features model_name r.include_feature_importance).1 with
          | .ok _ => (acc.1 + 1, acc.2)
          | .error _ => (acc.1, acc.2 + 1)) acc).1 +
      (records.foldl
        (fun acc r =>
          match (predictSvc svc r.features model_name r.include_feature_importance).1 with
          | .ok _ => (acc.1 + 1, acc.2)
          | .error _ => (acc.1, acc.2 + 1)) acc).2 = acc.1 + acc.2 + records.length := by
  intro records
  induction records with
  | nil => intro acc; simp
  | cons r rest ih =>
    intro acc
    simp only [List.foldl_cons, List.length_cons]
    cases h : (predictSvc svc r.features model_name r.include_feature_importance).1 with
    | ok v => rw [ih]; simp; omega
    | error e => rw [ih]; simp; omega

/-- C2: for every submitted batch whose orchestration loop runs to
completion, the final job satisfies `processed_records + failed_records =
total number of records` and its status is `completed`; per-record failures
are tallied and never flip the status to `failed`. -/
theorem c2_batch_accounting (svc : MLState) (model_name : Option String)
    (job : BatchJob) (records : List PredictionRequest) :
    (process_batch_predictions svc model_name job records).processed_records +
      (process_batch_predictions svc model_name job records).failed_records =
      records.length ∧
    (process_batch_predictions svc model_name job records).status = .completed := by
  constructor
  · simpa [process_batch_predictions, process_batch_records] using
      batch_counts_sum svc model_name records (0, 0)
  · rfl

/-- C1: the risk tier policy of `_predict_sync`: below 0.3 is low, from 0.3
up to but excluding 0.7 is medium, from 0.7 up is high; in particular the
six boundary scores of the spec map to low, medium, medium, high, high,
low. -/
theorem c1_risk_tier :
    (∀ p : ℚ, p < 3/10 → riskLevelOf p = .low) ∧
    (∀ p : ℚ, 3/10 ≤ p → p < 7/10 → riskLevelOf p = .medium) ∧
    (∀ p : ℚ, 7/10 ≤ p → riskLevelOf p = .high) ∧
    riskLevelOf (2999/10000) = .low ∧ riskLevelOf (3/10) = .medium ∧
    riskLevelOf (6999/10000) = .medium ∧ riskLevelOf (7/10) = .high ∧
    riskLevelOf 1 = .high ∧ riskLevelOf 0 = .low := by
  refine ⟨fun p hp => ?_, fun p h1 h2 => ?_, fun p hp => ?_, ?_, ?_, ?_, ?_, ?_, ?_⟩
  · simp only [riskLevelOf, if_pos hp]
  · simp only [riskLevelOf, if_neg (not_lt.2 h1), if_pos h2]
  · have h1 : ¬ p < 3/10 := not_lt.2 (by linarith)
    have h2 : ¬ p < 7/10 := not_lt.2 hp
    simp only [riskLevelOf, if_neg h1, if_neg h2]
  all_goals norm_num [riskLevelOf]

/-- Witness for C1 at concrete scores. -/
theorem c1_risk_tier_witness :
    riskLevelOf (1/10) = .low ∧ riskLevelOf (1/2) = .medium ∧
    riskLevelOf (9/10) = .high :=
  ⟨c1_risk_tier.1 _ (by norm_num),
   c1_risk_tier.2.1 _ (by norm_num) (by norm_num),
   c1_risk_tier.2.2.1 _ (by norm_num)⟩

/-- C6: the confidence band returned by `_predict_sync` is exactly
`[max 0 (p - 0.05), min 1 (p + 0.05)]`, and for a probability in the unit
interval the band brackets the score and stays inside the unit interval. -/
theorem c6_confidence_band (p : ℚ) (h0 : 0 ≤ p) (h1 : p ≤ 1) :
    confidence_interval p = (max 0 (p - 5/100), min 1 (p + 5/100)) ∧
    (confidence_interval p).1 ≤ p ∧ p ≤ (confidence_interval p).2 ∧
    0 ≤ (confidence_interval p).1 ∧ (confidence_interval p).2 ≤ 1 := by
  refine ⟨rfl, ?_, ?_, ?_, ?_⟩
  · exact max_le h0 (by linarith)
  · exact le_min h1 (by linarith)
  · exact le_max_left 0 _
  · exact min_le_left 1 _

/-- Witness for C6 at the score one half. -/
theorem c6_confidence_band_witness :
    confidence_interval (1/2) = (max 0 (1/2 - 5/100), min 1 (1/2 + 5/100)) ∧
    (confidence_interval (1/2)).1 ≤ 1/2 ∧ (1/2 : ℚ) ≤ (confidence_interval (1/2)).2 ∧
    0 ≤ (confidence_interval (1/2)).1 ∧ (confidence_interval (1/2)).2 ≤ 1 :=
  c6_confidence_band (1/2) (by norm_num) (by norm_num)

/-- C10: an empty batch submission is rejected by validation before any job
is created, a submission longer than 1000 records is rejected, and every
accepted submission creates the pending job with `total_records` equal to
the submitted length and both counters zero. -/
theorem c10_batch_validation :
    (∀ batchId model_name,
      create_batch_prediction batchId [] model_name =
        .error "Predictions list cannot be empty") ∧
    (∀ batchId (preds : List PredictionRequest) model_name,
      preds.length > 1000 →
      create_batch_prediction batchId preds model_name =
        .error "ensure this value has at most 1000 items") ∧
    (∀ batchId (preds : List PredictionRequest) model_name,
      preds ≠ [] → preds.length ≤ 1000 →
      create_batch_prediction batchId preds model_name =
        .ok { batch_id := batchId
              status := .pending
              total_records := preds.length
              processed_records := 0
              failed_records := 0
              model_name := model_name.getD DEFAULT_MODEL
              error_message := none }) := by
  refine ⟨fun batchId mname => rfl, fun batchId preds mname hlen => ?_, ?_⟩
  · simp [create_batch_prediction, validateBatchRequest, hlen, Except.map]
  · intro batchId preds mname hne hlen
    have h1 : ¬ preds.length > 1000 := not_lt.2 hlen
    have h2 : preds.isEmpty = false := by
      cases preds with
      | nil => exact absurd rfl hne
      | cons a l => rfl
    simp [create_batch_prediction, validateBatchRequest, h1, h2, Except.map]

/-- Witness for C10 on a singleton submission. -/
theorem c10_batch_validation_witness :
    create_batch_prediction "batch_1" [⟨"p1", [], false⟩] none =
      .ok { batch_id := "batch_1"
            status := .pending
            total_records := 1
            processed_records := 0
            failed_records := 0
            model_name := DEFAULT_MODEL
            error_message := none } :=
  c10_batch_validation.2.2 "batch_1" [⟨"p1", [], false⟩] none
    (by simp) (by simp)

end HosReadd

namespace HosReadd

/-- C7: when the requested model name (or the default resolution of an
omitted name) is not registered, `MLService.predict` fails with the
model-unavailable error before any encoding or model invocation (its effect
trace is empty), and the route leaves the cache and the prediction store
untouched: no partial state is written. -/
theorem c7_model_unavailable (digest : String → String) (svc : MLState)
    (st : ServeState) (newId patientId : String) (features : PatientRecord)
    (model_name : Option String) (includeFI : Bool)
    (h : alookup (model_name.getD DEFAULT_MODEL) svc.models = none) :
    predictSvc svc features model_name includeFI =
      (.error (.modelUnavailable (model_name.getD DEFAULT_MODEL)), []) ∧
    (create_prediction digest svc st newId patientId features model_name includeFI).2.1 = st ∧
    Eff.encode ∉ (create_prediction digest svc st newId patientId features model_name includeFI).2.2 ∧
    Eff.invoke ∉ (create_prediction digest svc st newId patientId features model_name includeFI).2.2 ∧
    Eff.dbWrite ∉ (create_prediction digest svc st newId patientId features model_name includeFI).2.2 ∧
    Eff.cacheWrite ∉ (create_prediction digest svc st newId patientId features model_name includeFI).2.2 := by
  have hp : predictSvc svc features model_name includeFI =
      (.error (.modelUnavailable (model_name.getD DEFAULT_MODEL)), []) := by
    simp only [predictSvc, h]
  refine ⟨hp, ?_⟩
  simp only [create_prediction]
  cases hc : alookup (prediction_cache_key patientId (calculate_features_hash digest features)) st.cache with
  | some cached => simp
  | none => simp [hp]

/-- Witness for C7: a request naming an unregistered model against an empty
registry and an empty serving state. -/
theorem c7_model_unavailable_witness :
    predictSvc ⟨[], []⟩ [] (some "nope") true =
      (.error (.modelUnavailable "nope"), []) ∧
    (create_prediction (fun s => s) ⟨[], []⟩ ⟨[], []⟩ "id1" "p1" [] (some "nope") true).2.1 = ⟨[], []⟩ ∧
    Eff.encode ∉ (create_prediction (fun s => s) ⟨[], []⟩ ⟨[], []⟩ "id1" "p1" [] (some "nope") true).2.2 ∧
    Eff.invoke ∉ (create_prediction (fun s => s) ⟨[], []⟩ ⟨[], []⟩ "id1" "p1" [] (some "nope") true).2.2 ∧
    Eff.dbWrite ∉ (create_prediction (fun s => s) ⟨[], []⟩ ⟨[], []⟩ "id1" "p1" [] (some "nope") true).2.2 ∧
    Eff.cacheWrite ∉ (create_prediction (fun s => s) ⟨[], []⟩ ⟨[], []⟩ "id1" "p1" [] (some "nope") true).2.2 :=
  c7_model_unavailable (fun s => s) ⟨[], []⟩ ⟨[], []⟩ "id1" "p1" [] (some "nope") true rfl

/-- C5: issuing the same predict call twice (same patient, value-equal
features, caching enabled) returns the first response verbatim on the
second call — identical risk score and confidence interval — with no state
change and an empty effect trace: the model is not invoked again. -/
theorem c5_cache_idempotence (digest : String → String) (svc : MLState)
    (st : ServeState) (id1 id2 patientId : String) (features : PatientRecord)
    (model_name : Option String) (includeFI : Bool)
    (r1 : PredictionResponse) (st1 : ServeState) (tr1 : List Eff)
    (h : create_prediction digest svc st id1 patientId features model_name includeFI =
      (.ok r1, st1, tr1)) :
    create_prediction digest svc st1 id2 patientId features model_name includeFI =
      (.ok r1, st1, []) := by
  simp only [create_prediction] at h ⊢
  cases hc : alookup (prediction_cache_key patientId (calculate_features_hash digest features)) st.cache with
  | some cached =>
    simp only [hc] at h
    obtain ⟨h1, h2, h3⟩ :
        (Except.ok cached : Except RouteError PredictionResponse) = Except.ok r1 ∧
          st = st1 ∧ ([] : List Eff) = tr1 := by
      simpa [Prod.ext_iff] using h
    obtain rfl : cached = r1 := by simpa using h1
    subst h2
    simp only [hc]
  | none =>
    simp only [hc] at h
    cases hp : predictSvc svc features model_name includeFI with
    | mk res tr =>
      cases res with
      | error e => rw [hp] at h; simp at h
      | ok out =>
        rw [hp] at h
        obtain ⟨h1, h2, h3⟩ : _ ∧ _ ∧ _ := by simpa [Prod.ext_iff] using h
        subst h2
        subst h1
        simp [alookup]

/-- Witness for C5: two identical calls against a one-model registry; the
first call populates the cache and the second returns the same response
with an empty trace. -/
theorem c5_cache_idempotence_witness :
    ∃ (r1 : PredictionResponse) (st1 : ServeState) (tr1 : List Eff),
      create_prediction (fun _ => "h") ⟨[("xgboost", ⟨fun _ => 1/2, []⟩)], [("xgboost", "1.0.0")]⟩
        ⟨[], []⟩ "id1" "p1" [] none false = (.ok r1, st1, tr1) ∧
      create_prediction (fun _ => "h") ⟨[("xgboost", ⟨fun _ => 1/2, []⟩)], [("xgboost", "1.0.0")]⟩
        st1 "id2" "p1" [] none false = (.ok r1, st1, []) := by
  refine ⟨_, _, _, rfl, ?_⟩
  exact c5_cache_idempotence (fun _ => "h")
    ⟨[("xgboost", ⟨fun _ => 1/2, []⟩)], [("xgboost", "1.0.0")]⟩
    ⟨[], []⟩ "id1" "id2" "p1" [] none false _ _ _ rfl

/-- C9 counterexample: the registry state built when every artifact loads is
definitionally equal to the one built when no artifact is available and the
dummy fallback is used throughout (instantiating both paths with the same
handle). The registry therefore records nothing — no degraded flag, no
distinct version — that would let a caller tell a fallback handle from a
real one; only a log line differs. -/
theorem c9_no_degraded_flag :
    _load_models (fun _ => some { score := fun _ => 0, importances := [] })
        (fun _ => { score := fun _ => 0, importances := [] }) =
      _load_models (fun _ => none)
        (fun _ => { score := fun _ => 0, importances := [] }) := rfl

/-- C9 as amended: when an artifact is unavailable, `_load_models` registers
the dummy fallback handle under the configured name instead of failing
startup, every configured model name is registered either way, and the
version table is the configured one in both cases — but nothing in the
registry distinguishes the fallback path. -/
theorem c9_fallback_registry (artifact : String → Option MLModel)
    (dummyModel : String → MLModel) :
    (_load_models artifact dummyModel).models.map Prod.fst = model_configs.map Prod.fst ∧
    (_load_models artifact dummyModel).model_versions = model_configs ∧
    (∀ name, name ∈ model_configs.map Prod.fst → artifact name = none →
      alookup name (_load_models artifact dummyModel).models = some (dummyModel name)) := by
  refine ⟨by simp [_load_models], rfl, ?_⟩
  intro name hname hart
  simp only [model_configs, List.map_cons, List.map_nil, List.mem_cons, List.not_mem_nil, or_false] at hname
  rcases hname with rfl | rfl | rfl | rfl <;>
    simp [_load_models, model_configs, alookup, hart]

/-- Witness for C9 as amended: with no artifacts available, the xgboost
entry of the registry is the dummy fallback handle. -/
theorem c9_fallback_registry_witness :
    alookup "xgboost"
        (_load_models (fun _ => none) (fun _ => { score := fun _ => 0, importances := [] })).models =
      some { score := fun _ => 0, importances := [] } :=
  (c9_fallback_registry (fun _ => none) (fun _ => { score := fun _ => 0, importances := [] })).2.2
    "xgboost" (by simp [model_configs]) rfl

end HosReadd

namespace HosReadd

/-! ### Helper lemmas about preprocessing -/

/-- The encoding loop rewrites each binding pointwise. -/
theorem alookup_encodeAll (d : PatientRecord) (f : String) :
    alookup f (encodeAll d) = (alookup f d).map (encodeFeatureVal f) := by
  induction d with
  | nil => rfl
  | cons p rest ih =>
    obtain ⟨k, v⟩ := p
    by_cases h : k = f <;> simp [encodeAll, alookup, h, ih] <;>
      simp [encodeAll] at ih <;> exact ih

/-- Appending a fresh binding is invisible to keys that are already bound. -/
theorem alookup_append_single_of_some (d : PatientRecord) (g f : String)
    (v w : Val) (h : alookup f d = some w) :
    alookup f (d ++ [(g, v)]) = some w := by
  induction d with
  | nil => simp [alookup] at h
  | cons p rest ih =>
    obtain ⟨k, w2⟩ := p
    by_cases hk : k = f
    · simp [alookup, hk] at h ⊢; exact h
    · simp [alookup, hk] at h ⊢; exact ih h

/-- Appending a binding resolves a previously unbound key exactly when the
keys agree. -/
theorem alookup_append_single_of_none (d : PatientRecord) (g f : String)
    (v : Val) (h : alookup f d = none) :
    alookup f (d ++ [(g, v)]) = if g = f then some v else none := by
  induction d with
  | nil => simp [alookup]
  | cons p rest ih =>
    obtain ⟨k, w2⟩ := p
    by_cases hk : k = f
    · simp [alookup, hk] at h
    · simp [alookup, hk] at h ⊢; exact ih h

/-- Dict assignment changes exactly the assigned key. -/
theorem alookup_setVal (d : PatientRecord) (g f : String) (v : Val) :
    alookup f (setVal d g v) = if g = f then some v else alookup f d := by
  induction d with
  | nil =>
    by_cases hgf : g = f <;> simp [setVal, alookup, hgf]
  | cons p rest ih =>
    obtain ⟨k, w⟩ := p
    by_cases hkg : k = g
    · subst hkg
      by_cases hkf : k = f <;> simp [setVal, alookup, hkf]
    · by_cases hkf : k = f
      · have hgf : ¬ g = f := fun hh => hkg (hkf.trans hh.symm)
        have hfg : ¬ f = g := fun hh => hgf hh.symm
        simp [setVal, hkg, alookup, hkf, hgf, hfg]
      · simp [setVal, hkg, alookup, hkf, ih]

/-- `normMissing` is idempotent. -/
theorem normMissing_normMissing (o : Option Val) :
    normMissing (normMissing o) = normMissing o := by
  cases o with
  | none => rfl
  | some v => cases v <;> rfl

/-- `normMissing` always yields a binding. -/
theorem normMissing_isSome (o : Option Val) : (normMissing o).isSome = true := by
  cases o with
  | none => rfl
  | some v => cases v <;> rfl

/-- One step of the missing-value loop, seen through `alookup`. -/
theorem alookup_fillMissingStep (d : PatientRecord) (g f : String) :
    alookup f (fillMissingStep d g) =
      if g = f then normMissing (alookup f d) else alookup f d := by
  unfold fillMissingStep
  cases hg : alookup g d with
  | none =>
    by_cases hgf : g = f
    · subst hgf
      rw [alookup_append_single_of_none d g g (Val.num 0) hg, hg]
      simp [normMissing]
    · cases hf : alookup f d with
      | none => rw [alookup_append_single_of_none d g f (Val.num 0) hf]; simp [hgf]
      | some w => rw [alookup_append_single_of_some d g f (Val.num 0) w hf]; simp [hgf]
  | some w =>
    cases w with
    | null =>
      rw [alookup_setVal]
      by_cases hgf : g = f
      · subst hgf; rw [hg]; simp [normMissing]
      · simp [hgf]
    | str s =>
      by_cases hgf : g = f
      · subst hgf; rw [hg]; simp [normMissing]
      · simp [hgf]
    | num q =>
      by_cases hgf : g = f
      · subst hgf; rw [hg]; simp [normMissing]
      · simp [hgf]

/-- The whole missing-value loop, seen through `alookup`: required features
are normalized, everything else is untouched. -/
theorem alookup_foldl_fill (l : List String) :
    ∀ (d : PatientRecord) (f : String),
      alookup f (l.foldl fillMissingStep d) =
        if f ∈ l then normMissing (alookup f d) else alookup f d := by
  induction l with
  | nil => intro d f; simp
  | cons g l2 ih =>
    intro d f
    simp only [List.foldl_cons]
    rw [ih (fillMissingStep d g) f, alookup_fillMissingStep]
    by_cases h2 : g = f
    · subst h2
      by_cases h1 : g ∈ l2 <;> simp [h1, normMissing_normMissing]
    · have h2b : ¬ f = g := fun hh => h2 hh.symm
      by_cases h1 : f ∈ l2 <;> simp [h1, h2, h2b, List.mem_cons]

/-- Looking up a key in a keyed map image. -/
theorem alookup_map_self (l : List String) (g : String → Val) (f : String) :
    alookup f (l.map (fun x => (x, g x))) = if f ∈ l then some (g f) else none := by
  induction l with
  | nil => simp [alookup]
  | cons k l2 ih =>
    by_cases h : k = f
    · subst h; simp [alookup, ih]
    · have : ¬ f = k := fun hh => h hh.symm
      simp [alookup, h, ih, List.mem_cons, this]

/-- After the missing-value loop, every required feature is bound, so the
column selection keeps the whole schema. -/
theorem availableFeatures_fill (d : PatientRecord) :
    availableFeatures (fillMissing (encodeAll d)) = requiredFeatures := by
  unfold availableFeatures fillMissing
  apply List.filter_eq_self.mpr
  intro f hf
  rw [alookup_foldl_fill requiredFeatures (encodeAll d) f, if_pos hf]
  exact normMissing_isSome _

/-- C3: feature preprocessing is total (a plain function: it never raises);
the produced frame has exactly the required-feature schema as its columns,
in schema order, so extra input fields are dropped; a required feature that
is absent or `None` in the input is substituted with 0; and a categorical
value outside the encoder vocabulary degrades to the fallback code 0. -/
theorem c3_feature_encoding (d : PatientRecord) :
    ((_preprocess_features d).map Prod.fst = requiredFeatures) ∧
    (∀ p ∈ _preprocess_features d, p.1 ∈ requiredFeatures) ∧
    (∀ f, f ∈ requiredFeatures →
      (alookup f d = none ∨ alookup f d = some Val.null) →
      alookup f (_preprocess_features d) = some (Val.num 0)) ∧
    (∀ f v, f ∈ requiredFeatures → f ∈ categoricalFeatures →
      alookup f d = some v → v ≠ Val.null → pyStr v ∉ encoderClasses →
      alookup f (_preprocess_features d) = some (Val.num 0)) := by
  have hpre : _preprocess_features d =
      requiredFeatures.map
        (fun f => (f, (alookup f (fillMissing (encodeAll d))).getD (Val.num 0))) := by
    simp only [_preprocess_features]
    rw [availableFeatures_fill]
  refine ⟨?_, ?_, ?_, ?_⟩
  · rw [hpre]; rfl
  · intro p hp
    rw [hpre] at hp
    obtain ⟨f, hf, rfl⟩ := List.mem_map.mp hp
    exact hf
  · intro f hf hcase
    rw [hpre, alookup_map_self, if_pos hf]
    unfold fillMissing
    rw [alookup_foldl_fill requiredFeatures (encodeAll d) f, if_pos hf,
      alookup_encodeAll]
    rcases hcase with h | h
    · rw [h]; rfl
    · rw [h]
      simp [encodeFeatureVal, normMissing]
  · intro f v hf hcat hlook hnull hcls
    rw [hpre, alookup_map_self, if_pos hf]
    unfold fillMissing
    rw [alookup_foldl_fill requiredFeatures (encodeAll d) f, if_pos hf,
      alookup_encodeAll, hlook]
    have henc : encodeFeatureVal f v = Val.num 0 := by
      rw [encodeFeatureVal, if_pos ⟨hcat, hnull⟩]
      unfold encodeCategorical
      rw [if_neg hcls]
      norm_num
    simp [henc, normMissing]

/-- Witness for C3: a record carrying only an unresolvable categorical value
and an extra field still yields the full schema, the absent required
feature age is substituted with 0, and the out-of-vocabulary gender value
degrades to the fallback code 0. -/
theorem c3_feature_encoding_witness :
    ((_preprocess_features [("gender", Val.str "Banana"), ("extra_field", Val.num 7)]).map
        Prod.fst = requiredFeatures) ∧
    alookup "age"
        (_preprocess_features [("gender", Val.str "Banana"), ("extra_field", Val.num 7)]) =
      some (Val.num 0) ∧
    alookup "gender"
        (_preprocess_features [("gender", Val.str "Banana"), ("extra_field", Val.num 7)]) =
      some (Val.num 0) :=
  ⟨(c3_feature_encoding _).1,
   (c3_feature_encoding _).2.2.1 "age" (by decide) (Or.inl rfl),
   (c3_feature_encoding _).2.2.2 "gender" (Val.str "Banana") (by decide) (by decide)
     rfl (by decide) (by decide)⟩

end HosReadd

namespace HosReadd

/-! ### Helper lemmas for the explainability ranking -/

/-- Two positions of a list, in order, form a sublist. -/
theorem pair_get_sublist {α : Type} :
    ∀ (l : List α) (i j : Nat) (hi : i < l.length) (hj : j < l.length),
      i < j → [l.get ⟨i, hi⟩, l.get ⟨j, hj⟩].Sublist l := by
  intro l
  induction l with
  | nil => intro i j hi _ _; simp at hi
  | cons x xs ih =>
    intro i j hi hj hij
    cases i with
    | zero =>
      cases j with
      | zero => exact absurd hij (lt_irrefl 0)
      | succ m =>
        simp only [List.get]
        exact List.Sublist.cons₂ x
          (List.singleton_sublist.mpr (xs.get_mem m (by simpa using hj)))
    | succ k =>
      cases j with
      | zero => exact absurd hij (by omega)
      | succ m =>
        have hs := ih k m (by simpa using hi) (by simpa using hj) (by omega)
        simp only [List.get]
        exact hs.cons x

/-- A two-element sublist appears at two ordered positions. -/
theorem sublist_pair_exists_get {α : Type} {a b : α} {l : List α}
    (h : [a, b].Sublist l) :
    ∃ (u v : Nat) (hu : u < l.length) (hv : v < l.length),
      u < v ∧ l.get ⟨u, hu⟩ = a ∧ l.get ⟨v, hv⟩ = b := by
  obtain ⟨is, heq, hpw⟩ := List.sublist_eq_map_get h
  cases is with
  | nil => simp at heq
  | cons u rest =>
    cases rest with
    | nil => simp at heq
    | cons v rest2 =>
      cases rest2 with
      | nil =>
        obtain ⟨ha, hb⟩ : a = l.get u ∧ b = l.get v := by simpa using heq
        have huv : u < v := List.rel_of_pairwise_cons hpw (by simp)
        exact ⟨u.1, v.1, u.2, v.2, huv, ha.symm, hb.symm⟩
      | cons w rest3 => simp at heq

/-- The names of the importance items are the column names, truncated to the
length of the importance vector. -/
theorem names_mkImportanceItems :
    ∀ (cols : List (String × ℚ)) (imps : List ℚ),
      (mkImportanceItems imps cols).map (fun it => it.feature_name) =
        (cols.map Prod.fst).take imps.length := by
  intro cols
  induction cols with
  | nil => intro imps; simp [mkImportanceItems]
  | cons c cs ih =>
    intro imps
    cases imps with
    | nil => simp [mkImportanceItems]
    | cons q qs =>
      have ihq := ih qs
      simp only [mkImportanceItems, List.zip_cons_cons, List.map_cons,
        List.length_cons, List.take_succ_cons] at ihq ⊢
      rw [ihq]

/-- The name of the importance item at a position is the column name at the
same position. -/
theorem name_get_mkImportanceItems :
    ∀ (cols : List (String × ℚ)) (imps : List ℚ) (p : Nat)
      (hp : p < (mkImportanceItems imps cols).length) (hpc : p < cols.length),
      ((mkImportanceItems imps cols).get ⟨p, hp⟩).feature_name =
        (cols.get ⟨p, hpc⟩).1 := by
  intro cols
  induction cols with
  | nil => intro imps p hp _; simp [mkImportanceItems] at hp
  | cons c cs ih =>
    intro imps p hp hpc
    cases imps with
    | nil => simp [mkImportanceItems] at hp
    | cons q qs =>
      cases p with
      | zero => rfl
      | succ n =>
        have hp2 : n < (mkImportanceItems qs cs).length := by
          simpa [mkImportanceItems] using hp
        have hpc2 : n < cs.length := by simpa using hpc
        simpa [mkImportanceItems, List.zip_cons_cons] using ih qs n hp2 hpc2

/-- Every importance item records the product of its importance and its
value as its contribution. -/
theorem contribution_mkImportanceItems (imps : List ℚ) (cols : List (String × ℚ)) :
    ∀ it ∈ mkImportanceItems imps cols,
      it.contribution = it.importance_score * it.feature_value := by
  intro it hit
  obtain ⟨p, _, rfl⟩ := List.mem_map.mp hit
  rfl

/-- C8: the explainability output of `_calculate_feature_importance` has at
most 10 entries, is sorted by descending importance, every entry carries
`contribution = importance * value`, and ties are broken by schema position:
two tied entries appear in the output in the order of their columns in the
frame (stable sort). The column names are assumed distinct, as they are for
a data frame built from the required-feature schema. -/
theorem c8_feature_importance (importances : List ℚ) (cols : List (String × ℚ))
    (hnd : (cols.map Prod.fst).Nodup) :
    (_calculate_feature_importance importances cols).length ≤ 10 ∧
    (_calculate_feature_importance importances cols).Pairwise
      (fun a b => b.importance_score ≤ a.importance_score) ∧
    (∀ it ∈ _calculate_feature_importance importances cols,
      it.contribution = it.importance_score * it.feature_value) ∧
    (∀ (i j : Nat) (hi : i < (_calculate_feature_importance importances cols).length)
       (hj : j < (_calculate_feature_importance importances cols).length),
      i < j →
      ((_calculate_feature_importance importances cols).get ⟨i, hi⟩).importance_score =
        ((_calculate_feature_importance importances cols).get ⟨j, hj⟩).importance_score →
      ∃ (p q : Nat) (hp : p < cols.length) (hq : q < cols.length), p < q ∧
        (cols.get ⟨p, hp⟩).1 =
          ((_calculate_feature_importance importances cols).get ⟨i, hi⟩).feature_name ∧
        (cols.get ⟨q, hq⟩).1 =
          ((_calculate_feature_importance importances cols).get ⟨j, hj⟩).feature_name) := by
  haveI hTot : IsTotal FeatureImportanceItem
      (fun a b => b.importance_score ≤ a.importance_score) :=
    ⟨fun a b => le_total b.importance_score a.importance_score⟩
  haveI hTrans : IsTrans FeatureImportanceItem
      (fun a b => b.importance_score ≤ a.importance_score) :=
    ⟨fun a b c h1 h2 => le_trans h2 h1⟩
  have hout : _calculate_feature_importance importances cols =
      (List.insertionSort (fun a b => b.importance_score ≤ a.importance_score)
        (mkImportanceItems importances cols)).take 10 := rfl
  have hperm := List.perm_insertionSort
    (fun a b : FeatureImportanceItem => b.importance_score ≤ a.importance_score)
    (mkImportanceItems importances cols)
  have hsorted := List.sorted_insertionSort
    (fun a b : FeatureImportanceItem => b.importance_score ≤ a.importance_score)
    (mkImportanceItems importances cols)
  have hndItems : ((mkImportanceItems importances cols).map
      (fun it => it.feature_name)).Nodup := by
    rw [names_mkImportanceItems]
    exact ((cols.map Prod.fst).take_sublist importances.length).nodup hnd
  have hndSorted : ((List.insertionSort
      (fun a b : FeatureImportanceItem => b.importance_score ≤ a.importance_score)
      (mkImportanceItems importances cols)).map (fun it => it.feature_name)).Nodup :=
    ((hperm.map (fun it => it.feature_name)).nodup_iff).mpr hndItems
  refine ⟨?_, ?_, ?_, ?_⟩
  · rw [hout]; exact List.length_take_le 10 _
  · rw [hout]
    exact List.Pairwise.sublist (List.take_sublist 10 _) hsorted
  · intro it hit
    rw [hout] at hit
    exact contribution_mkImportanceItems importances cols it
      (hperm.mem_iff.mp (List.mem_of_mem_take hit))
  · intro i j hi hj hij htie
    have hlen : (_calculate_feature_importance importances cols).length ≤
        (List.insertionSort
          (fun a b : FeatureImportanceItem => b.importance_score ≤ a.importance_score)
          (mkImportanceItems importances cols)).length := by
      rw [hout, List.length_take]
      exact min_le_right _ _
    have hi2 : i < (List.insertionSort
        (fun a b : FeatureImportanceItem => b.importance_score ≤ a.importance_score)
        (mkImportanceItems importances cols)).length := lt_of_lt_of_le hi hlen
    have hj2 : j < (List.insertionSort
        (fun a b : FeatureImportanceItem => b.importance_score ≤ a.importance_score)
        (mkImportanceItems importances cols)).length := lt_of_lt_of_le hj hlen
    have hgeti : (_calculate_feature_importance importances cols).get ⟨i, hi⟩ =
        (List.insertionSort
          (fun a b : FeatureImportanceItem => b.importance_score ≤ a.importance_score)
          (mkImportanceItems importances cols)).get ⟨i, hi2⟩ := by
      simp only [hout, List.get_eq_getElem, List.getElem_take]
    have hgetj : (_calculate_feature_importance importances cols).get ⟨j, hj⟩ =
        (List.insertionSort
          (fun a b : FeatureImportanceItem => b.importance_score ≤ a.importance_score)
          (mkImportanceItems importances cols)).get ⟨j, hj2⟩ := by
      simp only [hout, List.get_eq_getElem, List.getElem_take]
    have hinj : ∀ (u v : Nat)
        (hu : u < (List.insertionSort
          (fun a b : FeatureImportanceItem => b.importance_score ≤ a.importance_score)
          (mkImportanceItems importances cols)).length)
        (hv : v < (List.insertionSort
          (fun a b : FeatureImportanceItem => b.importance_score ≤ a.importance_score)
          (mkImportanceItems importances cols)).length),
        ((List.insertionSort
          (fun a b : FeatureImportanceItem => b.importance_score ≤ a.importance_score)
          (mkImportanceItems importances cols)).get ⟨u, hu⟩).feature_name =
          ((List.insertionSort
            (fun a b : FeatureImportanceItem => b.importance_score ≤ a.importance_score)
            (mkImportanceItems importances cols)).get ⟨v, hv⟩).feature_name → u = v := by
      intro u v hu hv hname
      have hmu : u < ((List.insertionSort
          (fun a b : FeatureImportanceItem => b.importance_score ≤ a.importance_score)
          (mkImportanceItems importances cols)).map (fun it => it.feature_name)).length := by
        simpa using hu
      have hmv : v < ((List.insertionSort
          (fun a b : FeatureImportanceItem => b.importance_score ≤ a.importance_score)
          (mkImportanceItems importances cols)).map (fun it => it.feature_name)).length := by
        simpa using hv
      refine (@List.Nodup.getElem_inj_iff String _ hndSorted u hmu v hmv).mp ?_
      simpa [List.getElem_map, List.get_eq_getElem] using hname
    have hamem : (List.insertionSort
        (fun a b : FeatureImportanceItem => b.importance_score ≤ a.importance_score)
        (mkImportanceItems importances cols)).get ⟨i, hi2⟩ ∈
          mkImportanceItems importances cols :=
      hperm.mem_iff.mp (List.get_mem _ _ _)
    have hbmem : (List.insertionSort
        (fun a b : FeatureImportanceItem => b.importance_score ≤ a.importance_score)
        (mkImportanceItems importances cols)).get ⟨j, hj2⟩ ∈
          mkImportanceItems importances cols :=
      hperm.mem_iff.mp (List.get_mem _ _ _)
    obtain ⟨⟨p, hp⟩, hpa⟩ := List.mem_iff_get.mp hamem
    obtain ⟨⟨q, hq⟩, hqb⟩ := List.mem_iff_get.mp hbmem
    have hne : ((List.insertionSort
        (fun a b : FeatureImportanceItem => b.importance_score ≤ a.importance_score)
        (mkImportanceItems importances cols)).get ⟨i, hi2⟩).feature_name ≠
        ((List.insertionSort
          (fun a b : FeatureImportanceItem => b.importance_score ≤ a.importance_score)
          (mkImportanceItems importances cols)).get ⟨j, hj2⟩).feature_name := by
      intro heqn
      exact absurd (hinj i j hi2 hj2 heqn) (Nat.ne_of_lt hij)
    have htie2 : ((List.insertionSort
        (fun a b : FeatureImportanceItem => b.importance_score ≤ a.importance_score)
        (mkImportanceItems importances cols)).get ⟨i, hi2⟩).importance_score =
        ((List.insertionSort
          (fun a b : FeatureImportanceItem => b.importance_score ≤ a.importance_score)
          (mkImportanceItems importances cols)).get ⟨j, hj2⟩).importance_score := by
      rw [← hgeti, ← hgetj]; exact htie
    have hpq : p < q := by
      rcases Nat.lt_trichotomy p q with h | h | h
      · exact h
      · exfalso
        apply hne
        rw [← hpa, ← hqb]
        subst h
        rfl
      · exfalso
        have hsub : [(mkImportanceItems importances cols).get ⟨q, hq⟩,
            (mkImportanceItems importances cols).get ⟨p, hp⟩].Sublist
              (mkImportanceItems importances cols) :=
          pair_get_sublist _ q p hq hp h
        rw [hpa, hqb] at hsub
        have hrel : ((List.insertionSort
            (fun a b : FeatureImportanceItem => b.importance_score ≤ a.importance_score)
            (mkImportanceItems importances cols)).get ⟨i, hi2⟩).importance_score ≤
            ((List.insertionSort
              (fun a b : FeatureImportanceItem => b.importance_score ≤ a.importance_score)
              (mkImportanceItems importances cols)).get ⟨j, hj2⟩).importance_score :=
          le_of_eq htie2
        have hpairsorted := @List.pair_sublist_insertionSort FeatureImportanceItem
          (fun a b => b.importance_score ≤ a.importance_score)
          (fun _ _ => inferInstance) _ _ _ hrel hsub
        obtain ⟨u, v, hu, hv, huv, hub, hva⟩ := sublist_pair_exists_get hpairsorted
        have hu_eq : u = j := hinj u j hu hj2 (by rw [hub])
        have hv_eq : v = i := hinj v i hv hi2 (by rw [hva])
        omega
    have hpcols : p < cols.length := by
      have : (mkImportanceItems importances cols).length ≤ cols.length := by
        simp only [mkImportanceItems, List.length_map, List.length_zip]
        exact min_le_left _ _
      omega
    have hqcols : q < cols.length := by
      have : (mkImportanceItems importances cols).length ≤ cols.length := by
        simp only [mkImportanceItems, List.length_map, List.length_zip]
        exact min_le_left _ _
      omega
    have hnamep : (cols.get ⟨p, hpcols⟩).1 =
        ((mkImportanceItems importances cols).get ⟨p, hp⟩).feature_name :=
      (name_get_mkImportanceItems cols importances p hp hpcols).symm
    have hnameq : (cols.get ⟨q, hqcols⟩).1 =
        ((mkImportanceItems importances cols).get ⟨q, hq⟩).feature_name :=
      (name_get_mkImportanceItems cols importances q hq hqcols).symm
    refine ⟨p, q, hpcols, hqcols, hpq, ?_, ?_⟩
    · rw [hgeti, ← hpa, hnamep]
    · rw [hgetj, ← hqb, hnameq]

end HosReadd

namespace HosReadd

/-- Witness for C8: three columns with a tied top importance; the two tied
entries appear in schema order at the head of the ranking. -/
theorem c8_feature_importance_witness :
    (_calculate_feature_importance [5, 5, 2] [("a", 2), ("b", 3), ("c", 4)]).length ≤ 10 ∧
    (∃ (p q : Nat) (hp : p < ([("a", 2), ("b", 3), ("c", 4)] : List (String × ℚ)).length)
        (hq : q < ([("a", 2), ("b", 3), ("c", 4)] : List (String × ℚ)).length), p < q ∧
      (([("a", 2), ("b", 3), ("c", 4)] : List (String × ℚ)).get ⟨p, hp⟩).1 =
        ((_calculate_feature_importance [5, 5, 2] [("a", 2), ("b", 3), ("c", 4)]).get
          ⟨0, by decide⟩).feature_name ∧
      (([("a", 2), ("b", 3), ("c", 4)] : List (String × ℚ)).get ⟨q, hq⟩).1 =
        ((_calculate_feature_importance [5, 5, 2] [("a", 2), ("b", 3), ("c", 4)]).get
          ⟨1, by decide⟩).feature_name) := by
  have H := c8_feature_importance [5, 5, 2] [("a", 2), ("b", 3), ("c", 4)] (by decide)
  exact ⟨H.1, H.2.2.2 0 1 (by decide) (by decide) (by decide) (by decide)⟩

end HosReadd

namespace HosReadd

/-! ### Character and string order facts -/

/-- Characters with equal code points are equal. -/
theorem char_toNat_inj {a b : Char} (h : a.toNat = b.toNat) : a = b := by
  have hv : a.val = b.val := by
    have h2 : a.val.toNat = b.val.toNat := h
    exact UInt32.eq_of_val_eq (Fin.ext h2)
  exact Char.ext hv

/-- Strings with the same characters are equal. -/
theorem string_data_inj {a b : String} (h : a.data = b.data) : a = b := by
  cases a; cases b; congr

/-- The code point order on character lists is total. -/
theorem charsLeB_total : ∀ (l1 l2 : List Char),
    charsLeB l1 l2 = true ∨ charsLeB l2 l1 = true := by
  intro l1
  induction l1 with
  | nil => intro l2; left; rfl
  | cons a as ih =>
    intro l2
    cases l2 with
    | nil => right; rfl
    | cons b bs =>
      rcases Nat.lt_trichotomy a.toNat b.toNat with h | h | h
      · left; simp [charsLeB, h]
      · have hne1 : ¬ a.toNat < b.toNat := by omega
        have hne2 : ¬ b.toNat < a.toNat := by omega
        rcases ih bs with h2 | h2
        · left; simp [charsLeB, hne1, hne2, h2]
        · right; simp [charsLeB, hne1, hne2, h2]
      · right; simp [charsLeB, h]

/-- The code point order on character lists is transitive. -/
theorem charsLeB_trans : ∀ (l1 l2 l3 : List Char),
    charsLeB l1 l2 = true → charsLeB l2 l3 = true → charsLeB l1 l3 = true := by
  intro l1
  induction l1 with
  | nil => intro l2 l3 _ _; rfl
  | cons a as ih =>
    intro l2 l3 h12 h23
    cases l2 with
    | nil => simp [charsLeB] at h12
    | cons b bs =>
      cases l3 with
      | nil => simp [charsLeB] at h23
      | cons c cs =>
        by_cases h1 : a.toNat < b.toNat <;> by_cases h2 : b.toNat < c.toNat
        · simp [charsLeB, Nat.lt_trans h1 h2]
        · by_cases h3 : c.toNat < b.toNat
          · simp [charsLeB, h2, h3] at h23
          · have : a.toNat < c.toNat := by omega
            simp [charsLeB, this]
        · by_cases h3 : b.toNat < a.toNat
          · simp [charsLeB, h1, h3] at h12
          · have : a.toNat < c.toNat := by omega
            simp [charsLeB, this]
        · by_cases h3 : b.toNat < a.toNat
          · simp [charsLeB, h1, h3] at h12
          · by_cases h4 : c.toNat < b.toNat
            · simp [charsLeB, h2, h4] at h23
            · have e1 : ¬ a.toNat < c.toNat := by omega
              have e2 : ¬ c.toNat < a.toNat := by omega
              simp [charsLeB, h1, h3] at h12
              simp [charsLeB, h2, h4] at h23
              simp [charsLeB, e1, e2]
              exact ih bs cs h12 h23

/-- The code point order on character lists is antisymmetric. -/
theorem charsLeB_antisymm : ∀ (l1 l2 : List Char),
    charsLeB l1 l2 = true → charsLeB l2 l1 = true → l1 = l2 := by
  intro l1
  induction l1 with
  | nil =>
    intro l2 _ h21
    cases l2 with
    | nil => rfl
    | cons b bs => simp [charsLeB] at h21
  | cons a as ih =>
    intro l2 h12 h21
    cases l2 with
    | nil => simp [charsLeB] at h12
    | cons b bs =>
      by_cases h1 : a.toNat < b.toNat
      · have hne : ¬ b.toNat < a.toNat := by omega
        simp [charsLeB, hne, h1] at h21
      · by_cases h2 : b.toNat < a.toNat
        · simp [charsLeB, h1, h2] at h12
        · have he : a = b := char_toNat_inj (by omega)
          subst he
          simp [charsLeB, h1, h2] at h12 h21
          rw [ih bs h12 h21]

/-- The string order is total. -/
theorem strLeB_total (a b : String) : strLeB a b = true ∨ strLeB b a = true :=
  charsLeB_total a.data b.data

/-- The string order is transitive. -/
theorem strLeB_trans {a b c : String} (h1 : strLeB a b = true)
    (h2 : strLeB b c = true) : strLeB a c = true :=
  charsLeB_trans a.data b.data c.data h1 h2

/-- The string order is antisymmetric. -/
theorem strLeB_antisymm {a b : String} (h1 : strLeB a b = true)
    (h2 : strLeB b a = true) : a = b :=
  string_data_inj (charsLeB_antisymm a.data b.data h1 h2)

/-! ### Canonical ordering of record members -/

/-- Canonical sorting permutes the record. -/
theorem canonicalPairs_perm (d : PatientRecord) : (canonicalPairs d).Perm d :=
  List.perm_insertionSort _ d

/-- Canonical sorting sorts by key. -/
theorem canonicalPairs_sorted (d : PatientRecord) :
    (canonicalPairs d).Sorted (fun a b => strLeB a.1 b.1 = true) := by
  haveI : IsTotal (String × Val) (fun a b => strLeB a.1 b.1 = true) :=
    ⟨fun a b => strLeB_total a.1 b.1⟩
  haveI : IsTrans (String × Val) (fun a b => strLeB a.1 b.1 = true) :=
    ⟨fun _ _ _ hab hbc => strLeB_trans hab hbc⟩
  exact List.sorted_insertionSort _ d

/-- On records with distinct keys, value-equal records (permutations of one
another) canonicalize identically: the sorted member list is unique. -/
theorem canonicalPairs_eq_of_perm {d1 d2 : PatientRecord} (hp : d1.Perm d2)
    (hnd : (d1.map Prod.fst).Nodup) : canonicalPairs d1 = canonicalPairs d2 := by
  haveI : IsAntisymm (String × Val)
      (fun a b => strLeB a.1 b.1 = true ∧ a.1 ≠ b.1) :=
    ⟨fun a b hab hba => absurd (strLeB_antisymm hab.1 hba.1) hab.2⟩
  have hnd2 : (d2.map Prod.fst).Nodup := ((hp.map Prod.fst).nodup_iff).mp hnd
  have hstrict : ∀ (d : PatientRecord), (d.map Prod.fst).Nodup →
      (canonicalPairs d).Sorted (fun a b => strLeB a.1 b.1 = true ∧ a.1 ≠ b.1) := by
    intro d hd
    have hndc : ((canonicalPairs d).map Prod.fst).Nodup :=
      (((canonicalPairs_perm d).map Prod.fst).nodup_iff).mpr hd
    have hne : (canonicalPairs d).Pairwise (fun a b => a.1 ≠ b.1) :=
      List.pairwise_map.mp hndc
    exact (canonicalPairs_sorted d).and hne
  exact List.eq_of_perm_of_sorted
    ((canonicalPairs_perm d1).trans (hp.trans (canonicalPairs_perm d2).symm))
    (hstrict d1 hnd) (hstrict d2 hnd2)

/-! ### Lookup under permutation -/

/-- An unresolved key is one outside the key list. -/
theorem alookup_eq_none_iff {α : Type} (d : List (String × α)) (f : String) :
    alookup f d = none ↔ f ∉ d.map Prod.fst := by
  induction d with
  | nil => simp [alookup]
  | cons p rest ih =>
    obtain ⟨k, v⟩ := p
    by_cases h : k = f
    · subst h; simp [alookup]
    · have hfk : ¬ f = k := fun hh => h hh.symm
      simp [alookup, h, ih, hfk]

/-- A resolved binding is a member. -/
theorem mem_of_alookup_eq_some {α : Type} {d : List (String × α)} {f : String}
    {v : α} (h : alookup f d = some v) : (f, v) ∈ d := by
  induction d with
  | nil => simp [alookup] at h
  | cons p rest ih =>
    obtain ⟨k, w⟩ := p
    by_cases hk : k = f
    · subst hk
      simp [alookup] at h
      simp [h]
    · simp [alookup, hk] at h
      simp [ih h]

/-- With distinct keys, membership determines the lookup. -/
theorem alookup_eq_some_of_mem {α : Type} {d : List (String × α)}
    (hnd : (d.map Prod.fst).Nodup) {f : String} {v : α} (h : (f, v) ∈ d) :
    alookup f d = some v := by
  induction d with
  | nil => simp at h
  | cons p rest ih =>
    obtain ⟨k, w⟩ := p
    rcases List.mem_cons.mp h with h0 | h0
    · obtain ⟨rfl, rfl⟩ := Prod.mk.inj h0
      simp [alookup]
    · have hk : ¬ k = f := by
        intro hkf
        subst hkf
        have : k ∈ rest.map Prod.fst :=
          List.mem_map.mpr ⟨(k, v), h0, rfl⟩
        exact (List.nodup_cons.mp hnd).1 this
      simp only [alookup, if_neg hk]
      exact ih (List.nodup_cons.mp hnd).2 h0

/-- With distinct keys, lookup is invariant under permutation of the
record. -/
theorem alookup_perm_eq {α : Type} {d1 d2 : List (String × α)} (hp : d1.Perm d2)
    (hnd : (d1.map Prod.fst).Nodup) (f : String) :
    alookup f d1 = alookup f d2 := by
  have hnd2 : (d2.map Prod.fst).Nodup := ((hp.map Prod.fst).nodup_iff).mp hnd
  cases h : alookup f d1 with
  | some v =>
    exact (alookup_eq_some_of_mem hnd2 (hp.mem_iff.mp (mem_of_alookup_eq_some h))).symm
  | none =>
    have h2 : f ∉ d2.map Prod.fst := by
      intro hmem
      exact ((alookup_eq_none_iff d1 f).mp h) ((hp.map Prod.fst).mem_iff.mpr hmem)
    exact ((alookup_eq_none_iff d2 f).mpr h2).symm

end HosReadd

namespace HosReadd

/-! ### Injectivity of the numeral rendering -/

/-- Code point of a digit character. -/
theorem digitChar_toNat (d : Nat) (h : d < 10) : (digitChar d).toNat = 48 + d := by
  interval_cases d <;> rfl

/-- Digit characters lie in the digit code point range. -/
theorem digitChar_range (d : Nat) : 48 ≤ (digitChar d).toNat ∧ (digitChar d).toNat ≤ 57 := by
  rcases Nat.lt_or_ge d 10 with h | h
  · have := digitChar_toNat d h; omega
  · have h9 : digitChar d = '9' := by
      rcases d with _ | _ | _ | _ | _ | _ | _ | _ | _ | e <;> first | omega | rfl
    rw [h9]; decide

/-- The numeral renderer never returns an empty list. -/
theorem natCharsAux_ne_nil (f n : Nat) (hf : 0 < f) : natCharsAux f n ≠ [] := by
  cases f with
  | zero => omega
  | succ f2 =>
    by_cases h : n < 10 <;> simp [natCharsAux, h]

/-- All characters of a rendered natural number are digits. -/
theorem natCharsAux_range : ∀ (f n : Nat), ∀ c ∈ natCharsAux f n,
    48 ≤ c.toNat ∧ c.toNat ≤ 57 := by
  intro f
  induction f with
  | zero => intro n c hc; simp [natCharsAux] at hc
  | succ f2 ih =>
    intro n c hc
    by_cases h : n < 10
    · simp [natCharsAux, h] at hc
      subst hc
      exact digitChar_range n
    · simp [natCharsAux, h] at hc
      rcases hc with hc | hc
      · exact ih (n / 10) c hc
      · subst hc
        exact digitChar_range (n % 10)

/-- The decimal rendering of natural numbers is injective (given enough
fuel, which `natChars` always supplies). -/
theorem natCharsAux_inj : ∀ (f1 m f2 n : Nat), m < f1 → n < f2 →
    natCharsAux f1 m = natCharsAux f2 n → m = n := by
  intro f1
  induction f1 with
  | zero => intro m f2 n hm _ _; omega
  | succ f1b ih =>
    intro m f2 n hm hn h
    cases f2 with
    | zero => omega
    | succ f2b =>
      by_cases h1 : m < 10 <;> by_cases h2 : n < 10
      · simp only [natCharsAux, if_pos h1, if_pos h2] at h
        have := List.cons.inj h
        have htn : (digitChar m).toNat = (digitChar n).toNat := by rw [this.1]
        rw [digitChar_toNat m h1, digitChar_toNat n h2] at htn
        omega
      · exfalso
        simp only [natCharsAux, if_pos h1, if_neg h2] at h
        have hlen := congrArg List.length h
        simp [List.length_append] at hlen
        exact natCharsAux_ne_nil f2b (n / 10) (by omega) hlen
      · exfalso
        simp only [natCharsAux, if_neg h1, if_pos h2] at h
        have hlen := congrArg List.length h
        simp [List.length_append] at hlen
        exact natCharsAux_ne_nil f1b (m / 10) (by omega) hlen
      · simp only [natCharsAux, if_neg h1, if_neg h2] at h
        have hrev := congrArg List.reverse h
        simp only [List.reverse_append, List.reverse_cons, List.reverse_nil,
          List.nil_append, List.cons_append] at hrev
        obtain ⟨hd, htl⟩ := List.cons.inj hrev
        have htails : natCharsAux f1b (m / 10) = natCharsAux f2b (n / 10) :=
          List.reverse_injective htl
        have hdig : m % 10 = n % 10 := by
          have htn : (digitChar (m % 10)).toNat = (digitChar (n % 10)).toNat := by rw [hd]
          rw [digitChar_toNat _ (Nat.mod_lt m (by omega)),
            digitChar_toNat _ (Nat.mod_lt n (by omega))] at htn
          omega
        have hdm : m / 10 < m := Nat.div_lt_self (by omega) (by omega)
        have hdn : n / 10 < n := Nat.div_lt_self (by omega) (by omega)
        have hquot : m / 10 = n / 10 := ih (m / 10) f2b (n / 10) (by omega) (by omega) htails
        omega

/-- Injectivity of `natChars`. -/
theorem natChars_inj {m n : Nat} (h : natChars m = natChars n) : m = n :=
  natCharsAux_inj (m + 1) m (n + 1) n (by omega) (by omega) h

/-- All characters of `natChars` are digits. -/
theorem natChars_range (n : Nat) : ∀ c ∈ natChars n, 48 ≤ c.toNat ∧ c.toNat ≤ 57 :=
  natCharsAux_range (n + 1) n

/-- `natChars` is never empty. -/
theorem natChars_ne_nil (n : Nat) : natChars n ≠ [] :=
  natCharsAux_ne_nil (n + 1) n (by omega)

/-- Characters of a rendered integer: a minus sign or a digit. -/
theorem intChars_range (i : Int) : ∀ c ∈ intChars i,
    c.toNat = 45 ∨ (48 ≤ c.toNat ∧ c.toNat ≤ 57) := by
  intro c hc
  unfold intChars at hc
  by_cases h : i < 0
  · rw [if_pos h] at hc
    rcases List.mem_cons.mp hc with hc | hc
    · subst hc; left; rfl
    · right; exact natChars_range _ c hc
  · rw [if_neg h] at hc
    right; exact natChars_range _ c hc

/-- Injectivity of the integer rendering. -/
theorem intChars_inj {i j : Int} (h : intChars i = intChars j) : i = j := by
  by_cases hi : i < 0 <;> by_cases hj : j < 0
  · simp only [intChars, if_pos hi, if_pos hj] at h
    have := natChars_inj (List.cons.inj h).2
    omega
  · exfalso
    simp only [intChars, if_pos hi, if_neg hj] at h
    have hmem : '-' ∈ natChars j.natAbs := h ▸ List.mem_cons_self '-' _
    have := natChars_range j.natAbs '-' hmem
    revert this; decide
  · exfalso
    simp only [intChars, if_neg hi, if_pos hj] at h
    have hmem : '-' ∈ natChars i.natAbs := h.symm ▸ List.mem_cons_self '-' _
    have := natChars_range i.natAbs '-' hmem
    revert this; decide
  · simp only [intChars, if_neg hi, if_neg hj] at h
    have := natChars_inj h
    omega

/-- Splitting at a distinguished separator character. -/
theorem append_cons_inj_of_not_mem {c : Char} :
    ∀ (x1 x2 y1 y2 : List Char), c ∉ x1 → c ∉ x2 →
      x1 ++ c :: y1 = x2 ++ c :: y2 → x1 = x2 ∧ y1 = y2 := by
  intro x1
  induction x1 with
  | nil =>
    intro x2 y1 y2 _ hc2 h
    cases x2 with
    | nil => exact ⟨rfl, (List.cons.inj h).2⟩
    | cons b x2b =>
      exfalso
      obtain ⟨hb, _⟩ := List.cons.inj h
      exact hc2 (hb ▸ List.mem_cons_self b x2b)
  | cons a x1b ih =>
    intro x2 y1 y2 hc1 hc2 h
    cases x2 with
    | nil =>
      exfalso
      obtain ⟨hb, _⟩ := List.cons.inj h
      exact hc1 (hb ▸ List.mem_cons_self a x1b)
    | cons b x2b =>
      obtain ⟨hb, htl⟩ := List.cons.inj h
      subst hb
      obtain ⟨hx, hy⟩ := ih x2b y1 y2 (fun hm => hc1 (List.mem_cons_of_mem a hm))
        (fun hm => hc2 (List.mem_cons_of_mem a hm)) htl
      exact ⟨by rw [hx], hy⟩

/-- All characters of a rendered rational: minus, slash, or a digit. -/
theorem ratChars_range (q : ℚ) : ∀ c ∈ ratChars q,
    c.toNat = 45 ∨ c.toNat = 47 ∨ (48 ≤ c.toNat ∧ c.toNat ≤ 57) := by
  intro c hc
  unfold ratChars at hc
  rcases List.mem_append.mp hc with hc | hc
  · rcases intChars_range q.num c hc with h | h
    · left; exact h
    · right; right; exact h
  · rcases List.mem_cons.mp hc with hc | hc
    · subst hc; right; left; rfl
    · right; right; exact natChars_range _ c hc

/-- Injectivity of the rational rendering. -/
theorem ratChars_inj {q r : ℚ} (h : ratChars q = ratChars r) : q = r := by
  have hnum : '/' ∉ intChars q.num := by
    intro hm
    rcases intChars_range q.num '/' hm with hx | hx <;> revert hx <;> decide
  have hnum2 : '/' ∉ intChars r.num := by
    intro hm
    rcases intChars_range r.num '/' hm with hx | hx <;> revert hx <;> decide
  obtain ⟨h1, h2⟩ := append_cons_inj_of_not_mem _ _ _ _ hnum hnum2 h
  exact Rat.ext (intChars_inj h1) (natChars_inj h2)

end HosReadd

namespace HosReadd

/-! ### Unique decoding of JSON string tokens -/

/-- An escaped content followed by an unescaped closing quote decodes
uniquely: the closing quote of a JSON string token is unambiguous. -/
theorem escChars_append_quote_inj :
    ∀ (u v s t : List Char),
      escChars u ++ '"' :: s = escChars v ++ '"' :: t → u = v ∧ s = t := by
  have e1 : escChar '"' = ['\\', '"'] := rfl
  have e2 : escChar '\\' = ['\\', '\\'] := rfl
  have e3 : ∀ c, ¬ c = '"' → ¬ c = '\\' → escChar c = [c] := by
    intro c h1 h2; simp [escChar, h1, h2]
  intro u
  induction u with
  | nil =>
    intro v s t h
    simp only [escChars, List.nil_append] at h
    cases v with
    | nil =>
      simp only [escChars, List.nil_append] at h
      exact ⟨rfl, (List.cons.inj h).2⟩
    | cons b v2 =>
      exfalso
      by_cases hb1 : b = '"'
      · subst hb1
        simp only [escChars, e1, List.cons_append, List.append_assoc,
          List.nil_append] at h
        exact absurd (List.cons.inj h).1 (by decide)
      · by_cases hb2 : b = '\\'
        · subst hb2
          simp only [escChars, e2, List.cons_append, List.append_assoc,
            List.nil_append] at h
          exact absurd (List.cons.inj h).1 (by decide)
        · simp only [escChars, e3 b hb1 hb2, List.cons_append, List.append_assoc,
            List.nil_append, List.singleton_append] at h
          exact hb1 ((List.cons.inj h).1).symm
  | cons a u2 ih =>
    intro v s t h
    cases v with
    | nil =>
      exfalso
      simp only [escChars, List.nil_append] at h
      by_cases ha1 : a = '"'
      · subst ha1
        simp only [escChars, e1, List.cons_append, List.append_assoc,
          List.nil_append] at h
        exact absurd (List.cons.inj h).1 (by decide)
      · by_cases ha2 : a = '\\'
        · subst ha2
          simp only [escChars, e2, List.cons_append, List.append_assoc,
            List.nil_append] at h
          exact absurd (List.cons.inj h).1 (by decide)
        · simp only [escChars, e3 a ha1 ha2, List.cons_append, List.append_assoc,
            List.nil_append, List.singleton_append] at h
          exact ha1 (List.cons.inj h).1
    | cons b v2 =>
      by_cases ha1 : a = '"'
      · subst ha1
        by_cases hb1 : b = '"'
        · subst hb1
          simp only [escChars, e1, List.cons_append, List.append_assoc,
            List.singleton_append] at h
          obtain ⟨hu, hs⟩ := ih v2 s t (List.cons.inj (List.cons.inj h).2).2
          exact ⟨by rw [hu], hs⟩
        · by_cases hb2 : b = '\\'
          · subst hb2
            exfalso
            simp only [escChars, e1, e2, List.cons_append, List.append_assoc,
              List.singleton_append] at h
            exact absurd (List.cons.inj (List.cons.inj h).2).1 (by decide)
          · exfalso
            simp only [escChars, e1, e3 b hb1 hb2, List.cons_append,
              List.append_assoc, List.singleton_append] at h
            exact hb2 ((List.cons.inj h).1).symm
      · by_cases ha2 : a = '\\'
        · subst ha2
          by_cases hb1 : b = '"'
          · subst hb1
            exfalso
            simp only [escChars, e1, e2, List.cons_append, List.append_assoc,
              List.singleton_append] at h
            exact absurd (List.cons.inj (List.cons.inj h).2).1 (by decide)
          · by_cases hb2 : b = '\\'
            · subst hb2
              simp only [escChars, e2, List.cons_append, List.append_assoc,
                List.singleton_append] at h
              obtain ⟨hu, hs⟩ := ih v2 s t (List.cons.inj (List.cons.inj h).2).2
              exact ⟨by rw [hu], hs⟩
            · exfalso
              simp only [escChars, e2, e3 b hb1 hb2, List.cons_append,
                List.append_assoc, List.singleton_append] at h
              exact hb2 ((List.cons.inj h).1).symm
        · by_cases hb1 : b = '"'
          · subst hb1
            exfalso
            simp only [escChars, e1, e3 a ha1 ha2, List.cons_append,
              List.append_assoc, List.singleton_append] at h
            exact ha2 (List.cons.inj h).1
          · by_cases hb2 : b = '\\'
            · subst hb2
              exfalso
              simp only [escChars, e2, e3 a ha1 ha2, List.cons_append,
                List.append_assoc, List.singleton_append] at h
              exact ha2 (List.cons.inj h).1
            · simp only [escChars, e3 a ha1 ha2, e3 b hb1 hb2, List.cons_append,
                List.append_assoc, List.singleton_append] at h
              obtain ⟨hab, htl⟩ := List.cons.inj h
              subst hab
              obtain ⟨hu, hs⟩ := ih v2 s t htl
              exact ⟨by rw [hu], hs⟩

/-- A JSON string token followed by arbitrary text decodes uniquely. -/
theorem jsonStrChars_append_inj {s1 s2 : String} {r1 r2 : List Char}
    (h : jsonStrChars s1 ++ r1 = jsonStrChars s2 ++ r2) : s1 = s2 ∧ r1 = r2 := by
  simp only [jsonStrChars, List.cons_append, List.append_assoc,
    List.singleton_append] at h
  obtain ⟨hd, hr⟩ := escChars_append_quote_inj s1.data s2.data r1 r2 (List.cons.inj h).2
  exact ⟨string_data_inj hd, hr⟩

/-- A token over a restricted alphabet followed by text that starts outside
the alphabet (or ends) decodes uniquely. -/
theorem append_alphabet_inj (P : Char → Prop) :
    ∀ (x1 x2 s1 s2 : List Char), (∀ c ∈ x1, P c) → (∀ c ∈ x2, P c) →
      (s1 = [] ∨ ∃ c s, s1 = c :: s ∧ ¬ P c) →
      (s2 = [] ∨ ∃ c s, s2 = c :: s ∧ ¬ P c) →
      x1 ++ s1 = x2 ++ s2 → x1 = x2 ∧ s1 = s2 := by
  intro x1
  induction x1 with
  | nil =>
    intro x2 s1 s2 _ hP2 hs1 _ h
    cases x2 with
    | nil => exact ⟨rfl, h⟩
    | cons b x2b =>
      exfalso
      simp only [List.nil_append, List.cons_append] at h
      rcases hs1 with rfl | ⟨c, s, rfl, hnc⟩
      · exact List.noConfusion h
      · obtain ⟨hc, _⟩ := List.cons.inj h
        exact hnc (by rw [hc]; exact hP2 b (List.mem_cons_self b x2b))
  | cons a x1b ih =>
    intro x2 s1 s2 hP1 hP2 hs1 hs2 h
    cases x2 with
    | nil =>
      exfalso
      simp only [List.nil_append, List.cons_append] at h
      rcases hs2 with rfl | ⟨c, s, rfl, hnc⟩
      · exact List.noConfusion h
      · obtain ⟨hc, _⟩ := List.cons.inj h.symm
        exact hnc (by rw [hc]; exact hP1 a (List.mem_cons_self a x1b))
    | cons b x2b =>
      simp only [List.cons_append] at h
      obtain ⟨hab, htl⟩ := List.cons.inj h
      subst hab
      obtain ⟨hx, hs⟩ := ih x2b s1 s2 (fun c hc => hP1 c (List.mem_cons_of_mem a hc))
        (fun c hc => hP2 c (List.mem_cons_of_mem a hc)) hs1 hs2 htl
      exact ⟨by rw [hx], hs⟩

end HosReadd

namespace HosReadd

/-- A rendered rational is never empty. -/
theorem ratChars_ne_nil (q : ℚ) : ratChars q ≠ [] := by
  unfold ratChars
  intro h
  exact List.noConfusion (List.append_eq_nil.mp h).2

/-- Head shape of a rendered rational. -/
theorem ratChars_head_cases (q : ℚ) : ∃ c rest, ratChars q = c :: rest ∧
    (c.toNat = 45 ∨ c.toNat = 47 ∨ (48 ≤ c.toNat ∧ c.toNat ≤ 57)) := by
  cases hr : ratChars q with
  | nil => exact absurd hr (ratChars_ne_nil q)
  | cons c rest =>
    exact ⟨c, rest, rfl, ratChars_range q c (hr ▸ List.mem_cons_self c rest)⟩

/-- A JSON value token followed by a member separator (or nothing) decodes
uniquely: null, string and number tokens cannot be confused. -/
theorem jsonValChars_append_inj :
    ∀ (v1 v2 : Val) (s1 s2 : List Char),
      (s1 = [] ∨ ∃ s, s1 = ',' :: s) → (s2 = [] ∨ ∃ s, s2 = ',' :: s) →
      jsonValChars v1 ++ s1 = jsonValChars v2 ++ s2 → v1 = v2 ∧ s1 = s2 := by
  intro v1 v2 s1 s2 hs1 hs2 h
  cases v1 with
  | null =>
    cases v2 with
    | null =>
      simp only [jsonValChars, List.cons_append, List.nil_append] at h
      exact ⟨rfl,
        (List.cons.inj (List.cons.inj (List.cons.inj (List.cons.inj h).2).2).2).2⟩
    | str b =>
      exfalso
      simp only [jsonValChars, jsonStrChars, List.cons_append] at h
      exact absurd (List.cons.inj h).1 (by decide)
    | num q =>
      exfalso
      obtain ⟨c, rest, hr, hc⟩ := ratChars_head_cases q
      simp only [jsonValChars, List.cons_append, hr] at h
      have hn := (List.cons.inj h).1
      rw [← hn] at hc
      revert hc; decide
  | str a =>
    cases v2 with
    | null =>
      exfalso
      simp only [jsonValChars, jsonStrChars, List.cons_append] at h
      exact absurd (List.cons.inj h).1 (by decide)
    | str b =>
      obtain ⟨hab, hs⟩ := jsonStrChars_append_inj
        (show jsonStrChars a ++ s1 = jsonStrChars b ++ s2 from h)
      exact ⟨by rw [hab], hs⟩
    | num q =>
      exfalso
      obtain ⟨c, rest, hr, hc⟩ := ratChars_head_cases q
      simp only [jsonValChars, jsonStrChars, List.cons_append, hr] at h
      have hn := (List.cons.inj h).1
      rw [← hn] at hc
      revert hc; decide
  | num q1 =>
    cases v2 with
    | null =>
      exfalso
      obtain ⟨c, rest, hr, hc⟩ := ratChars_head_cases q1
      simp only [jsonValChars, List.cons_append, hr] at h
      have hn := (List.cons.inj h).1
      rw [hn] at hc
      revert hc; decide
    | str b =>
      exfalso
      obtain ⟨c, rest, hr, hc⟩ := ratChars_head_cases q1
      simp only [jsonValChars, jsonStrChars, List.cons_append, hr] at h
      have hn := (List.cons.inj h).1
      rw [hn] at hc
      revert hc; decide
    | num q2 =>
      have conv1 : s1 = [] ∨ ∃ c s, s1 = c :: s ∧
          ¬ (c.toNat = 45 ∨ c.toNat = 47 ∨ (48 ≤ c.toNat ∧ c.toNat ≤ 57)) := by
        rcases hs1 with rfl | ⟨s, rfl⟩
        · left; rfl
        · right; exact ⟨',', s, rfl, by decide⟩
      have conv2 : s2 = [] ∨ ∃ c s, s2 = c :: s ∧
          ¬ (c.toNat = 45 ∨ c.toNat = 47 ∨ (48 ≤ c.toNat ∧ c.toNat ≤ 57)) := by
        rcases hs2 with rfl | ⟨s, rfl⟩
        · left; rfl
        · right; exact ⟨',', s, rfl, by decide⟩
      obtain ⟨hx, hsx⟩ := append_alphabet_inj
        (fun c => c.toNat = 45 ∨ c.toNat = 47 ∨ (48 ≤ c.toNat ∧ c.toNat ≤ 57))
        (ratChars q1) (ratChars q2) s1 s2 (ratChars_range q1) (ratChars_range q2)
        conv1 conv2 h
      exact ⟨by rw [ratChars_inj hx], hsx⟩

/-- A serialized object member followed by a member separator (or nothing)
decodes uniquely. -/
theorem pairChars_append_inj {p1 p2 : String × Val} {r1 r2 : List Char}
    (hsuf1 : r1 = [] ∨ ∃ s, r1 = ',' :: s)
    (hsuf2 : r2 = [] ∨ ∃ s, r2 = ',' :: s)
    (h : pairChars p1 ++ r1 = pairChars p2 ++ r2) : p1 = p2 ∧ r1 = r2 := by
  obtain ⟨k1, v1⟩ := p1
  obtain ⟨k2, v2⟩ := p2
  simp only [pairChars, List.append_assoc, List.cons_append] at h
  obtain ⟨hk, hrest⟩ := jsonStrChars_append_inj h
  obtain ⟨hv, hr⟩ := jsonValChars_append_inj v1 v2 r1 r2 hsuf1 hsuf2
    (List.cons.inj (List.cons.inj hrest).2).2
  exact ⟨by rw [hk, hv], hr⟩

/-- A serialized nonempty member list is never empty. -/
theorem pairsChars_ne_nil (p : String × Val) (d : List (String × Val)) :
    pairsChars (p :: d) ≠ [] := by
  cases d with
  | nil => simp [pairsChars, pairChars, jsonStrChars]
  | cons q rest => simp [pairsChars, pairChars, jsonStrChars]

/-- The joined member serialization is injective. -/
theorem pairsChars_inj : ∀ (d1 d2 : List (String × Val)),
    pairsChars d1 = pairsChars d2 → d1 = d2 := by
  intro d1
  induction d1 with
  | nil =>
    intro d2 h
    cases d2 with
    | nil => rfl
    | cons q d2b => exact absurd h.symm (pairsChars_ne_nil q d2b)
  | cons p d1b ih =>
    intro d2 h
    cases d2 with
    | nil => exact absurd h (pairsChars_ne_nil p d1b)
    | cons q d2b =>
      cases d1b with
      | nil =>
        cases d2b with
        | nil =>
          have h2 : pairChars p ++ ([] : List Char) = pairChars q ++ [] := by
            simpa [pairsChars] using h
          obtain ⟨hpq, _⟩ := pairChars_append_inj (Or.inl rfl) (Or.inl rfl) h2
          rw [hpq]
        | cons y2 d2c =>
          exfalso
          have h2 : pairChars p ++ ([] : List Char) =
              pairChars q ++ (',' :: ' ' :: pairsChars (y2 :: d2c)) := by
            simpa [pairsChars] using h
          obtain ⟨_, habs⟩ := pairChars_append_inj (Or.inl rfl)
            (Or.inr ⟨' ' :: pairsChars (y2 :: d2c), rfl⟩) h2
          exact List.noConfusion habs
      | cons y1 d1c =>
        cases d2b with
        | nil =>
          exfalso
          have h2 : pairChars p ++ (',' :: ' ' :: pairsChars (y1 :: d1c)) =
              pairChars q ++ ([] : List Char) := by
            simpa [pairsChars] using h
          obtain ⟨_, habs⟩ := pairChars_append_inj
            (Or.inr ⟨' ' :: pairsChars (y1 :: d1c), rfl⟩) (Or.inl rfl) h2
          exact List.noConfusion habs.symm
        | cons y2 d2c =>
          have h2 : pairChars p ++ (',' :: ' ' :: pairsChars (y1 :: d1c)) =
              pairChars q ++ (',' :: ' ' :: pairsChars (y2 :: d2c)) := h
          obtain ⟨hpq, hrest⟩ := pairChars_append_inj
            (Or.inr ⟨' ' :: pairsChars (y1 :: d1c), rfl⟩)
            (Or.inr ⟨' ' :: pairsChars (y2 :: d2c), rfl⟩) h2
          have htails := (List.cons.inj (List.cons.inj hrest).2).2
          rw [hpq, ih (y2 :: d2c) htails]

/-- The whole object serialization is injective. -/
theorem serializeChars_inj {d1 d2 : List (String × Val)}
    (h : serializeChars d1 = serializeChars d2) : d1 = d2 := by
  unfold serializeChars at h
  exact pairsChars_inj d1 d2 (List.append_cancel_right (List.cons.inj h).2)

/-- Equal canonical JSON texts mean equal canonical member lists. -/
theorem featuresJson_inj {d1 d2 : PatientRecord}
    (h : featuresJson d1 = featuresJson d2) :
    canonicalPairs d1 = canonicalPairs d2 := by
  unfold featuresJson at h
  have h2 : serializeChars (canonicalPairs d1) = serializeChars (canonicalPairs d2) := by
    injection h
  exact serializeChars_inj h2

/-- The fingerprint, with an injective digest, identifies records exactly up
to value equality (permutation of members). -/
theorem hash_eq_iff_perm (digest : String → String)
    (hinj : Function.Injective digest) (r1 r2 : PatientRecord)
    (h1 : (r1.map Prod.fst).Nodup) :
    calculate_features_hash digest r1 = calculate_features_hash digest r2 ↔
      r1.Perm r2 := by
  constructor
  · intro h
    have hjson : featuresJson r1 = featuresJson r2 := hinj h
    have hcanon := featuresJson_inj hjson
    exact (canonicalPairs_perm r1).symm.trans
      (by rw [hcanon]; exact canonicalPairs_perm r2)
  · intro hperm
    unfold calculate_features_hash featuresJson
    rw [canonicalPairs_eq_of_perm hperm h1]

/-- C4: with the external MD5 digest modelled as an opaque injective
function (the collision-freedom the spec calls overwhelming probability),
the cache key of (patient, record) is the same for two records exactly when
the records are value-equal, independent of the key order in which their
members were supplied; and any change to a single field value, observed as
a differing lookup, changes the fingerprint. -/
theorem c4_fingerprint (digest : String → String)
    (hinj : Function.Injective digest) (patientId : String)
    (r1 r2 : PatientRecord)
    (h1 : (r1.map Prod.fst).Nodup) (h2 : (r2.map Prod.fst).Nodup) :
    (prediction_cache_key patientId (calculate_features_hash digest r1) =
      prediction_cache_key patientId (calculate_features_hash digest r2) ↔
        r1.Perm r2) ∧
    (∀ f, alookup f r1 ≠ alookup f r2 →
      calculate_features_hash digest r1 ≠ calculate_features_hash digest r2) := by
  have hkeyinj : ∀ (a b : String),
      prediction_cache_key patientId a = prediction_cache_key patientId b →
        a = b := by
    intro a b hab
    unfold prediction_cache_key cache_key at hab
    simp only [List.foldl_cons, List.foldl_nil] at hab
    have hdata := congrArg String.data hab
    simp only [String.data_append, List.append_assoc] at hdata
    apply string_data_inj
    iterate 4 replace hdata := List.append_cancel_left hdata
    exact hdata
  constructor
  · constructor
    · intro hk
      exact (hash_eq_iff_perm digest hinj r1 r2 h1).mp (hkeyinj _ _ hk)
    · intro hperm
      rw [(hash_eq_iff_perm digest hinj r1 r2 h1).mpr hperm]
  · intro f hne hhash
    exact hne
      (alookup_perm_eq ((hash_eq_iff_perm digest hinj r1 r2 h1).mp hhash) h1 f)

/-- Witness for C4: the same two members in either order give the same
cache key, and changing one field value changes the fingerprint. -/
theorem c4_fingerprint_witness :
    (prediction_cache_key "p1" (calculate_features_hash (fun s => s)
        [("a", Val.num 1), ("b", Val.str "x")]) =
      prediction_cache_key "p1" (calculate_features_hash (fun s => s)
        [("b", Val.str "x"), ("a", Val.num 1)])) ∧
    calculate_features_hash (fun s => s) [("a", Val.num 1), ("b", Val.str "x")] ≠
      calculate_features_hash (fun s => s) [("a", Val.num 2), ("b", Val.str "x")] := by
  constructor
  · exact ((c4_fingerprint (fun s => s) (fun a b hab => hab) "p1"
      [("a", Val.num 1), ("b", Val.str "x")] [("b", Val.str "x"), ("a", Val.num 1)]
      (by decide) (by decide)).1).mpr
      (List.Perm.swap ("b", Val.str "x") ("a", Val.num 1) [])
  · exact (c4_fingerprint (fun s => s) (fun a b hab => hab) "p1"
      [("a", Val.num 1), ("b", Val.str "x")] [("a", Val.num 2), ("b", Val.str "x")]
      (by decide) (by decide)).2 "a" (by decide)

end HosReadd
